import Mathlib

namespace Petit

/-
  Verification of the LR(0) table builder and parsing engine of
  src/parsing_table.rs (petit_compiler).

  The Rust code is shallowly embedded:
  * BTreeMap values become functions into Option, updated by insertF
    (later inserts overwrite earlier ones, as BTreeMap::insert does);
  * the iteration of a BTreeMap / BTreeSet in sorted key order is modelled
    by sorting a list with an explicit comparator;
  * Rust panics (unwrap, out-of-bounds indexing, unreachable empty stacks)
    are modelled by Option-valued functions returning none;
  * printing is not modelled except through the StepOutcome tag that records
    which diagnostic branch was taken.
-/

/-- Modelled from the spec: the two-variant symbol type of bnf.rs (the file is
not under src/); Terminal and NonTerminal with payloads supplied by the caller. -/
inductive Symbol (NT T : Type) where
  | NonTerm : NT → Symbol NT T
  | Term : T → Symbol NT T
deriving DecidableEq

/-- Grammar item of item_set.rs (the file is not under src/): a left-hand
nonterminal, a right-hand symbol sequence and a dot position; the field names
are the ones used by parsing_table.rs. -/
structure LR0Item (NT T : Type) where
  left : NT
  right : List (Symbol NT T)
  dot_pos : Nat
deriving DecidableEq

/-- An automaton state: `Vec<LR0Item<NT, T>>` in the Rust code. -/
abbrev AutomatonState (NT T : Type) := List (LR0Item NT T)

/-- The `ActionKind` enum of parsing_table.rs. -/
inductive ActionKind where
  | Accept : ActionKind
  | Reduce : Nat → ActionKind
  | Shift : Nat → ActionKind
  | Error : ActionKind
deriving DecidableEq

/-- True exactly on `Reduce` actions. -/
def isReduceAction : ActionKind → Bool
  | ActionKind.Reduce _ => true
  | _ => false

/-- An action table: the `BTreeMap<(usize, T), ActionKind>` of the Rust code,
modelled as a function with optional results. -/
abbrev ATbl (T : Type) := Nat × T → Option ActionKind

/-- A goto table: the `BTreeMap<(usize, NT), usize>` of the Rust code. -/
abbrev GTbl (NT : Type) := Nat × NT → Option Nat

/-- One entry `((from, symbol), tgt)` of the automaton's transition map. -/
abbrev TransEntry (NT T : Type) := (AutomatonState NT T × Symbol NT T) × AutomatonState NT T

/-- The `LR0Parser` struct of parsing_table.rs. -/
structure LR0Parser (NT T : Type) where
  input : List T
  cursor : Nat
  action_table : ATbl T
  goto_table : GTbl NT
  stack : List Nat
  rule_table : List (LR0Item NT T)

/-- `BTreeMap::insert`: the updated map returns the new value at the inserted
key and is unchanged elsewhere. -/
def insertF {K V : Type} [DecidableEq K] (m : K → Option V) (k : K) (v : V) : K → Option V :=
  fun j => if j = k then some v else m j

/-- Modelled from the spec: symbols are an ordered type (bnf.rs is not under
src/); the derived lexicographic order, Terminal before NonTerminal. Only the
fact that this is some fixed total comparator matters for the claims below. -/
def symbolLt {NT T : Type} [LinearOrder NT] [LinearOrder T] :
    Symbol NT T → Symbol NT T → Bool
  | Symbol.Term a, Symbol.Term b => decide (a < b)
  | Symbol.Term _, Symbol.NonTerm _ => true
  | Symbol.NonTerm _, Symbol.Term _ => false
  | Symbol.NonTerm a, Symbol.NonTerm b => decide (a < b)

/-- Lexicographic strict order on lists from a strict order on elements. -/
def listLtBy {α : Type} [DecidableEq α] (lt : α → α → Bool) : List α → List α → Bool
  | [], [] => false
  | [], _ :: _ => true
  | _ :: _, [] => false
  | a :: as, b :: bs => if lt a b then true else if a = b then listLtBy lt as bs else false

/-- Modelled from the spec: the derived lexicographic order on grammar items
(item_set.rs is not under src/), comparing left, then right, then dot_pos. -/
def itemLt {NT T : Type} [LinearOrder NT] [LinearOrder T] (i j : LR0Item NT T) : Bool :=
  if i.left < j.left then true
  else if i.left = j.left then
    if listLtBy symbolLt i.right j.right then true
    else if i.right = j.right then decide (i.dot_pos < j.dot_pos)
    else false
  else false

/-- Strict order on automaton states (Rust `Vec<LR0Item>` order). -/
def stateLt {NT T : Type} [DecidableEq NT] [DecidableEq T] [LinearOrder NT] [LinearOrder T] :
    AutomatonState NT T → AutomatonState NT T → Bool :=
  listLtBy itemLt

/-- Insert into a list sorted by the comparator le. -/
def insertSorted {α : Type} (le : α → α → Bool) (a : α) : List α → List α
  | [] => [a]
  | b :: bs => if le a b then a :: b :: bs else b :: insertSorted le a bs

/-- Sort a list by the comparator le (insertion sort). -/
def sortBy {α : Type} (le : α → α → Bool) (l : List α) : List α :=
  l.foldr (insertSorted le) []

/-- The sorted list of distinct elements of l: the iteration order of a
BTreeSet (or of the key set of a BTreeMap) collected from l. -/
def sortedDedup {α : Type} [DecidableEq α] (le : α → α → Bool) (l : List α) : List α :=
  (sortBy le l).dedup

/-- Non-strict comparator on automaton states, for sorted iteration. -/
def stateLe {NT T : Type} [DecidableEq NT] [DecidableEq T] [LinearOrder NT] [LinearOrder T]
    (s t : AutomatonState NT T) : Bool :=
  stateLt s t || decide (s = t)

/-- The distinct automaton states in BTreeMap key order: how
`state_number_table.iter()` enumerates its entries. -/
def sorted_states {NT T : Type} [DecidableEq NT] [DecidableEq T] [LinearOrder NT] [LinearOrder T]
    (states : List (AutomatonState NT T)) : List (AutomatonState NT T) :=
  sortedDedup stateLe states

/-- The loop building `state_number_table`: insert (state, id) for each state
in enumeration order (a duplicated state keeps its last index, as with
BTreeMap::insert). -/
def snt_loop {NT T : Type} [DecidableEq NT] [DecidableEq T]
    (m : AutomatonState NT T → Option Nat) (i : Nat) :
    List (AutomatonState NT T) → (AutomatonState NT T → Option Nat)
  | [] => m
  | s :: rest => snt_loop (insertF m s i) (i + 1) rest

/-- The `state_number_table` of canonical_automaton_to_lr0: maps each
state value of the automaton's state list onto its (last) index. -/
def state_number_table {NT T : Type} [DecidableEq NT] [DecidableEq T]
    (states : List (AutomatonState NT T)) : AutomatonState NT T → Option Nat :=
  snt_loop (fun _ => none) 0 states

/-- The augmented start item `extended_start -> . start eof` (dot_pos 0). -/
def start_item {NT T : Type} (ext st : NT) (eof : T) : LR0Item NT T :=
  ⟨ext, [Symbol.NonTerm st, Symbol.Term eof], 0⟩

/-- The accept item `extended_start -> start eof .` (dot_pos 2). -/
def accept_item {NT T : Type} (ext st : NT) (eof : T) : LR0Item NT T :=
  ⟨ext, [Symbol.NonTerm st, Symbol.Term eof], 2⟩

/-- The distinct complete non-accept items of a state: the inner BTreeSet
built by the reduce-state filter of canonical_automaton_to_lr0. -/
def complete_items {NT T : Type} [DecidableEq NT] [DecidableEq T]
    (ar : LR0Item NT T) (s : AutomatonState NT T) : List (LR0Item NT T) :=
  (s.filter (fun it => decide (it.dot_pos = it.right.length) && decide (it ≠ ar))).dedup

/-- The reduce-state filter: a state with more than one distinct complete
non-accept item (reduce/reduce conflict), or exactly one such item together
with other items (shift/reduce conflict), or exactly one such item, belongs
in the reduce set. -/
def is_reduce_state {NT T : Type} [DecidableEq NT] [DecidableEq T]
    (ar : LR0Item NT T) (s : AutomatonState NT T) : Bool :=
  if 1 < (complete_items ar s).length then true
  else if (complete_items ar s).length = 1 ∧ 1 < s.length then true
  else decide ((complete_items ar s).length = 1)

/-- The `reduce_states` BTreeSet: distinct reduce-set states in sorted order,
which is the enumeration order assigning rule numbers. -/
def reduce_states {NT T : Type} [DecidableEq NT] [DecidableEq T] [LinearOrder NT] [LinearOrder T]
    (states : List (AutomatonState NT T)) (ar : LR0Item NT T) : List (AutomatonState NT T) :=
  sortedDedup stateLe (states.filter (fun s => is_reduce_state ar s))

/-- The inner loop `for term in terms` installing `Reduce(rule_number)` at
`(state_number, term)` for every terminal of the alphabet. -/
def insert_reduce_actions {T : Type} [DecidableEq T]
    (at_ : ATbl T) (n rn : Nat) (terms : List T) : ATbl T :=
  terms.foldl (fun a t => insertF a (n, t) (ActionKind.Reduce rn)) at_

/-- The rule-numbering loop of canonical_automaton_to_lr0: for each
reduce state (in sorted order, rule numbers from enumerate), look up its state
number (skip the state if absent), push the state's item 0 onto the rule table
(indexing panics on an empty state: none), and install Reduce entries for all
terminals. -/
def reduce_loop {NT T : Type} [DecidableEq NT] [DecidableEq T]
    (snt : AutomatonState NT T → Option Nat) (terms : List T) :
    Nat → List (AutomatonState NT T) → List (LR0Item NT T) × ATbl T →
    Option (List (LR0Item NT T) × ATbl T)
  | _, [], acc => some acc
  | rn, s :: rest, (rt, at_) =>
    match snt s with
    | some n =>
      match s.head? with
      | some h => reduce_loop snt terms (rn + 1) rest (rt ++ [h], insert_reduce_actions at_ n rn terms)
      | none => none
    | none => reduce_loop snt terms (rn + 1) rest (rt, at_)

/-- The action derived from a terminal transition target: Accept if the target
contains the accept item, Shift of the target's number if the target is
non-empty (none if the number lookup would panic), Error otherwise. -/
def transition_action {NT T : Type} [DecidableEq NT] [DecidableEq T]
    (snt : AutomatonState NT T → Option Nat) (ar : LR0Item NT T)
    (tgt : AutomatonState NT T) : Option ActionKind :=
  if ar ∈ tgt then some ActionKind.Accept
  else if tgt ≠ [] then (snt tgt).map ActionKind.Shift
  else some ActionKind.Error

/-- The transition loop of canonical_automaton_to_lr0: for each entry
of the transition map, install the transition-derived action (terminal
symbols) or the goto entry (nonterminal symbols); the unwraps of the number
lookups become none. -/
def transition_loop {NT T : Type} [DecidableEq NT] [DecidableEq T]
    (snt : AutomatonState NT T → Option Nat) (ar : LR0Item NT T) :
    List (TransEntry NT T) → ATbl T × GTbl NT → Option (ATbl T × GTbl NT)
  | [], acc => some acc
  | ((fr, sym), tgt) :: rest, (at_, gt) =>
    match sym with
    | Symbol.Term t =>
      match transition_action snt ar tgt, snt fr with
      | some rule, some fn => transition_loop snt ar rest (insertF at_ (fn, t) rule, gt)
      | _, _ => none
    | Symbol.NonTerm nt =>
      match snt fr, snt tgt with
      | some fn, some tn => transition_loop snt ar rest (at_, insertF gt (fn, nt) tn)
      | _, _ => none

/-- The table-building entry point of parsing_table.rs (its Rust name carries
a suffix this development avoids): number the
states, locate the start state (first state in map order containing the
augmented start item; unwrap of a failed find becomes none), install all
Reduce entries, then overlay the transition-derived action and goto entries,
and return the parser with empty input, cursor 0 and stack holding the start
state's number. -/
def canonical_automaton_to_lr0 {NT T : Type}
    [DecidableEq NT] [DecidableEq T] [LinearOrder NT] [LinearOrder T]
    (states : List (AutomatonState NT T)) (transitions : List (TransEntry NT T))
    (ext st : NT) (eof : T) (terms : List T) : Option (LR0Parser NT T) :=
  match ((sorted_states states).find? (fun s => decide (start_item ext st eof ∈ s))).bind
      (state_number_table states) with
  | none => none
  | some ssn =>
    match reduce_loop (state_number_table states) terms 0
        (reduce_states states (accept_item ext st eof)) ([], fun _ => none) with
    | none => none
    | some (rule_table, at0) =>
      match transition_loop (state_number_table states) (accept_item ext st eof)
          transitions (at0, fun _ => none) with
      | none => none
      | some (at1, gt1) =>
        some { input := [], cursor := 0, action_table := at1, goto_table := gt1,
               stack := [ssn], rule_table := rule_table }

/-- The `reset` method of LR0Parser: cursor set at 0, input cleared, stack set at
the literal `vec![0]`. -/
def reset {NT T : Type} (p : LR0Parser NT T) : LR0Parser NT T :=
  { p with cursor := 0, input := [], stack := [0] }

/-- The pop loop `for _ in 0..pops` of the Reduce branch: `Vec::pop` removes
the last element and is a no-op on an empty vector. -/
def pop_states (stack : List Nat) (k : Nat) : List Nat :=
  stack.take (stack.length - k)

/-- Which branch of `step_once` was taken; records the diagnostic that the
Rust code prints in that branch (noop prints nothing: the `if let` on the
lookahead simply fails). -/
inductive StepOutcome where
  | noop : StepOutcome
  | accept : StepOutcome
  | shift : Nat → StepOutcome
  | reduce : Nat → StepOutcome
  | errorAction : StepOutcome
  | noAction : StepOutcome
deriving DecidableEq

/-- The Reduce branch shared by step_once and the export loop: pop as many
states as the rule's right-hand side is long, read the new top (panic - none -
if the stack became empty), look up the goto entry for (new top, rule's left
nonterminal) (panic if absent) and push it; the cursor is untouched. -/
def reduce_step {NT T : Type} (p : LR0Parser NT T) (r : Nat) (item : LR0Item NT T) :
    Option (StepOutcome × LR0Parser NT T) :=
  match (pop_states p.stack item.right.length).get?
      ((pop_states p.stack item.right.length).length - 1) with
  | none => none
  | some q2 =>
    match p.goto_table (q2, item.left) with
    | none => none
    | some g =>
      some (StepOutcome.reduce r,
        { p with stack := pop_states p.stack item.right.length ++ [g], cursor := p.cursor })

/-- The `step_once` method of LR0Parser: if the lookahead exists, read the
current state from the top of the stack (panic on an empty stack), look up the
action and execute it; a missing action or an Error action only reports and
changes nothing; a missing lookahead does nothing at all. -/
def step_once {NT T : Type} (p : LR0Parser NT T) : Option (StepOutcome × LR0Parser NT T) :=
  match p.input.get? p.cursor with
  | none => some (StepOutcome.noop, p)
  | some x =>
    match p.stack.get? (p.stack.length - 1) with
    | none => none
    | some q =>
      match p.action_table (q, x) with
      | none => some (StepOutcome.noAction, p)
      | some ActionKind.Accept => some (StepOutcome.accept, p)
      | some ActionKind.Error => some (StepOutcome.errorAction, p)
      | some (ActionKind.Shift n) =>
        some (StepOutcome.shift n, { p with stack := p.stack ++ [n], cursor := p.cursor + 1 })
      | some (ActionKind.Reduce r) =>
        match p.rule_table.get? r with
        | none => none
        | some item => reduce_step p r item

/-- One iteration of the `loop` in `export_parsing_as_latex_src`. The Bool is
true when the iteration executed `break` (the Accept branch, the only break in
the loop); every other branch - including a missing lookahead, a missing
action and the Error action - falls through and the loop runs again. -/
def export_iter {NT T : Type} (p : LR0Parser NT T) : Option (Bool × LR0Parser NT T) :=
  match p.input.get? p.cursor with
  | none => some (false, p)
  | some x =>
    match p.stack.get? (p.stack.length - 1) with
    | none => none
    | some q =>
      match p.action_table (q, x) with
      | none => some (false, p)
      | some ActionKind.Accept => some (true, p)
      | some ActionKind.Error => some (false, p)
      | some (ActionKind.Shift n) =>
        some (false, { p with stack := p.stack ++ [n], cursor := p.cursor + 1 })
      | some (ActionKind.Reduce r) =>
        match p.rule_table.get? r with
        | none => none
        | some item => (reduce_step p r item).map (fun pr => (false, pr.2))

/-- Run the export loop for a given number of iterations: some (true, p) when
a break occurred, some (false, p) when the loop is still running after that
many iterations with current state p, none when an iteration panicked. -/
def export_run {NT T : Type} : Nat → LR0Parser NT T → Option (Bool × LR0Parser NT T)
  | 0, p => some (false, p)
  | n + 1, p =>
    match export_iter p with
    | none => none
    | some (true, q) => some (true, q)
    | some (false, q) => export_run n q

/-- Looking up the inserted key returns the inserted value. -/
theorem insertF_self {K V : Type} [DecidableEq K] (m : K → Option V) (k : K) (v : V) :
    insertF m k v k = some v := by
  simp [insertF]

/-- Looking up any other key is unchanged by an insert. -/
theorem insertF_ne {K V : Type} [DecidableEq K] (m : K → Option V) (k j : K) (v : V)
    (h : j ≠ k) : insertF m k v j = m j := by
  simp [insertF, h]

/-- A state that never occurs in the numbering loop keeps its prior value. -/
theorem snt_loop_not_mem {NT T : Type} [DecidableEq NT] [DecidableEq T]
    (s : AutomatonState NT T) :
    ∀ (l : List (AutomatonState NT T)) (m : AutomatonState NT T → Option Nat) (i : Nat),
      s ∉ l → snt_loop m i l s = m s := by
  intro l
  induction l with
  | nil => intro m i _; rfl
  | cons s0 rest ih =>
    intro m i hs
    have h1 : s ∉ rest := fun h => hs (List.mem_cons_of_mem _ h)
    have h2 : s ≠ s0 := fun h => hs (h ▸ List.mem_cons_self _ _)
    simp only [snt_loop]
    rw [ih _ _ h1, insertF_ne _ _ _ _ h2]

/-- A state occurring in the numbering loop is numbered by an index at which
the list holds that state. -/
theorem snt_loop_mem {NT T : Type} [DecidableEq NT] [DecidableEq T]
    (s : AutomatonState NT T) :
    ∀ (l : List (AutomatonState NT T)) (m : AutomatonState NT T → Option Nat) (i : Nat),
      s ∈ l → ∃ k, l.get? k = some s ∧ snt_loop m i l s = some (i + k) := by
  intro l
  induction l with
  | nil => intro m i hs; exact absurd hs (List.not_mem_nil s)
  | cons s0 rest ih =>
    intro m i hs
    by_cases hr : s ∈ rest
    · obtain ⟨k, hget, hres⟩ := ih (insertF m s0 i) (i + 1) hr
      refine ⟨k + 1, by simpa using hget, ?_⟩
      simp only [snt_loop]
      rw [hres]
      congr 1
      omega
    · have hs0 : s = s0 := by
        rcases List.mem_cons.mp hs with h | h
        · exact h
        · exact absurd h hr
      refine ⟨0, by simp [hs0], ?_⟩
      simp only [snt_loop]
      rw [snt_loop_not_mem s rest _ _ hr]
      subst hs0
      simp [insertF]

/-- The state number table is sound: a numbered state sits at its number in
the automaton's state list. -/
theorem state_number_table_get {NT T : Type} [DecidableEq NT] [DecidableEq T]
    (states : List (AutomatonState NT T)) (s : AutomatonState NT T) (i : Nat)
    (h : state_number_table states s = some i) : states.get? i = some s := by
  by_cases hm : s ∈ states
  · obtain ⟨k, hget, hres⟩ := snt_loop_mem s states (fun _ => none) 0 hm
    unfold state_number_table at h
    rw [hres] at h
    have hk : 0 + k = i := Option.some.inj h
    rw [← hk]
    simpa using hget
  · unfold state_number_table at h
    rw [snt_loop_not_mem s states _ _ hm] at h
    exact absurd h (by simp)

/-- Every state of the automaton's state list receives a number. -/
theorem state_number_table_total {NT T : Type} [DecidableEq NT] [DecidableEq T]
    (states : List (AutomatonState NT T)) (s : AutomatonState NT T)
    (hm : s ∈ states) : ∃ i, state_number_table states s = some i := by
  obtain ⟨k, _, hres⟩ := snt_loop_mem s states (fun _ => none) 0 hm
  exact ⟨0 + k, hres⟩

/-- Distinct states receive distinct numbers. -/
theorem state_number_table_inj {NT T : Type} [DecidableEq NT] [DecidableEq T]
    (states : List (AutomatonState NT T)) (s s2 : AutomatonState NT T) (i : Nat)
    (h1 : state_number_table states s = some i)
    (h2 : state_number_table states s2 = some i) : s = s2 := by
  have g1 := state_number_table_get states s i h1
  have g2 := state_number_table_get states s2 i h2
  rw [g1] at g2
  exact Option.some.inj g2

/-- Membership is preserved by sorted insertion. -/
theorem mem_insertSorted {α : Type} (le : α → α → Bool) (a x : α) :
    ∀ l, x ∈ insertSorted le a l ↔ x = a ∨ x ∈ l := by
  intro l
  induction l with
  | nil => simp [insertSorted]
  | cons b bs ih =>
    simp only [insertSorted]
    by_cases h : le a b
    · simp [h, List.mem_cons]
    · simp only [h]
      simp only [Bool.false_eq_true, if_false, List.mem_cons, ih]
      tauto

/-- Sorting preserves membership. -/
theorem mem_sortBy {α : Type} (le : α → α → Bool) (x : α) :
    ∀ l, x ∈ sortBy le l ↔ x ∈ l := by
  intro l
  induction l with
  | nil => simp [sortBy]
  | cons b bs ih =>
    have : sortBy le (b :: bs) = insertSorted le b (sortBy le bs) := rfl
    rw [this, mem_insertSorted, ih, List.mem_cons]

/-- The sorted deduplicated view of a list has the same members. -/
theorem mem_sortedDedup {α : Type} [DecidableEq α] (le : α → α → Bool) (x : α)
    (l : List α) : x ∈ sortedDedup le l ↔ x ∈ l := by
  unfold sortedDedup
  rw [List.mem_dedup, mem_sortBy]

/-- Keys with a terminal outside the alphabet are untouched by the Reduce
installation loop. -/
theorem insert_reduce_actions_not_mem {T : Type} [DecidableEq T] :
    ∀ (terms : List T) (at_ : ATbl T) (n rn n2 : Nat) (t : T), t ∉ terms →
      insert_reduce_actions at_ n rn terms (n2, t) = at_ (n2, t) := by
  intro terms
  induction terms with
  | nil => intro at_ n rn n2 t _; rfl
  | cons t0 rest ih =>
    intro at_ n rn n2 t ht
    have h1 : t ∉ rest := fun h => ht (List.mem_cons_of_mem _ h)
    have h2 : t ≠ t0 := fun h => ht (h ▸ List.mem_cons_self _ _)
    have hstep : insert_reduce_actions at_ n rn (t0 :: rest) =
        insert_reduce_actions (insertF at_ (n, t0) (ActionKind.Reduce rn)) n rn rest := rfl
    rw [hstep, ih _ _ _ _ _ h1, insertF_ne]
    intro heq
    exact h2 (congrArg Prod.snd heq)

/-- The Reduce installation loop installs a Reduce entry at every terminal of
the alphabet for the treated state number. -/
theorem insert_reduce_actions_mem {T : Type} [DecidableEq T] :
    ∀ (terms : List T) (at_ : ATbl T) (n rn : Nat) (t : T), t ∈ terms →
      insert_reduce_actions at_ n rn terms (n, t) = some (ActionKind.Reduce rn) := by
  intro terms
  induction terms with
  | nil => intro at_ n rn t ht; exact absurd ht (List.not_mem_nil t)
  | cons t0 rest ih =>
    intro at_ n rn t ht
    have hstep : insert_reduce_actions at_ n rn (t0 :: rest) =
        insert_reduce_actions (insertF at_ (n, t0) (ActionKind.Reduce rn)) n rn rest := rfl
    rw [hstep]
    by_cases hr : t ∈ rest
    · exact ih _ _ _ _ hr
    · have ht0 : t = t0 := by
        rcases List.mem_cons.mp ht with h | h
        · exact h
        · exact absurd h hr
      rw [insert_reduce_actions_not_mem _ _ _ _ _ _ hr, ht0, insertF_self]

/-- The Reduce installation loop writes only Reduce actions: every key either
carries the installed Reduce or is unchanged. -/
theorem insert_reduce_actions_shape {T : Type} [DecidableEq T] :
    ∀ (terms : List T) (at_ : ATbl T) (n rn : Nat) (k : Nat × T),
      insert_reduce_actions at_ n rn terms k = some (ActionKind.Reduce rn) ∨
      insert_reduce_actions at_ n rn terms k = at_ k := by
  intro terms
  induction terms with
  | nil => intro at_ n rn k; exact Or.inr rfl
  | cons t0 rest ih =>
    intro at_ n rn k
    have hstep : insert_reduce_actions at_ n rn (t0 :: rest) =
        insert_reduce_actions (insertF at_ (n, t0) (ActionKind.Reduce rn)) n rn rest := rfl
    rw [hstep]
    rcases ih (insertF at_ (n, t0) (ActionKind.Reduce rn)) n rn k with h | h
    · exact Or.inl h
    · by_cases hk : k = (n, t0)
      · rw [h, hk, insertF_self]
        exact Or.inl rfl
      · rw [h, insertF_ne _ _ _ _ hk]
        exact Or.inr rfl

/-- The whole reduce phase writes only Reduce actions: at every key the final
table either carries some Reduce action or the initial value. -/
theorem reduce_loop_shape {NT T : Type} [DecidableEq NT] [DecidableEq T]
    (snt : AutomatonState NT T → Option Nat) (terms : List T) :
    ∀ (rstates : List (AutomatonState NT T)) (rn0 : Nat) (rt0 : List (LR0Item NT T))
      (at0 : ATbl T) (rt : List (LR0Item NT T)) (at_ : ATbl T),
      reduce_loop snt terms rn0 rstates (rt0, at0) = some (rt, at_) →
      ∀ k, (∃ r, at_ k = some (ActionKind.Reduce r)) ∨ at_ k = at0 k := by
  intro rstates
  induction rstates with
  | nil =>
    intro rn0 rt0 at0 rt at_ hsucc k
    have h := Option.some.inj hsucc
    injection h with h1 h2
    subst h1
    subst h2
    exact Or.inr rfl
  | cons s0 rest ih =>
    intro rn0 rt0 at0 rt at_ hsucc k
    cases hn : snt s0 with
    | some n =>
      cases hh : s0.head? with
      | some h0 =>
        simp only [reduce_loop, hn, hh] at hsucc
        rcases ih _ _ _ _ _ hsucc k with hred | hkeep
        · exact Or.inl hred
        · rcases insert_reduce_actions_shape terms at0 n rn0 k with h | h
          · exact Or.inl ⟨rn0, hkeep.trans h⟩
          · exact Or.inr (hkeep.trans h)
      | none =>
        simp only [reduce_loop, hn, hh] at hsucc
        exact Option.noConfusion hsucc
    | none =>
      simp only [reduce_loop, hn] at hsucc
      exact ih _ _ _ _ _ hsucc k

/-- A key already carrying a Reduce action still carries a Reduce action
after the reduce phase. -/
theorem reduce_loop_preserves_reduce {NT T : Type} [DecidableEq NT] [DecidableEq T]
    (snt : AutomatonState NT T → Option Nat) (terms : List T)
    (rstates : List (AutomatonState NT T)) (rn0 : Nat) (rt0 : List (LR0Item NT T))
    (at0 : ATbl T) (rt : List (LR0Item NT T)) (at_ : ATbl T)
    (hsucc : reduce_loop snt terms rn0 rstates (rt0, at0) = some (rt, at_))
    (k : Nat × T) (h : ∃ r, at0 k = some (ActionKind.Reduce r)) :
    ∃ r, at_ k = some (ActionKind.Reduce r) := by
  rcases reduce_loop_shape snt terms rstates rn0 rt0 at0 rt at_ hsucc k with h1 | h1
  · exact h1
  · rw [h1]
    exact h

/-- After a successful reduce phase, every treated reduce state has a Reduce
entry at each terminal of the alphabet for its state number. -/
theorem reduce_loop_mem_reduce {NT T : Type} [DecidableEq NT] [DecidableEq T]
    (snt : AutomatonState NT T → Option Nat) (terms : List T) :
    ∀ (rstates : List (AutomatonState NT T)) (rn0 : Nat) (rt0 : List (LR0Item NT T))
      (at0 : ATbl T) (rt : List (LR0Item NT T)) (at_ : ATbl T),
      reduce_loop snt terms rn0 rstates (rt0, at0) = some (rt, at_) →
      ∀ (s : AutomatonState NT T) (n : Nat) (t : T),
        s ∈ rstates → snt s = some n → t ∈ terms →
        ∃ r, at_ (n, t) = some (ActionKind.Reduce r) := by
  intro rstates
  induction rstates with
  | nil =>
    intro rn0 rt0 at0 rt at_ _ s n t hs _ _
    exact absurd hs (List.not_mem_nil s)
  | cons s0 rest ih =>
    intro rn0 rt0 at0 rt at_ hsucc s n t hs hn ht
    by_cases hr : s ∈ rest
    · cases hn0 : snt s0 with
      | some n0 =>
        cases hh : s0.head? with
        | some h0 =>
          simp only [reduce_loop, hn0, hh] at hsucc
          exact ih _ _ _ _ _ hsucc s n t hr hn ht
        | none =>
          simp only [reduce_loop, hn0, hh] at hsucc
          exact Option.noConfusion hsucc
      | none =>
        simp only [reduce_loop, hn0] at hsucc
        exact ih _ _ _ _ _ hsucc s n t hr hn ht
    · have hs0 : s = s0 := by
        rcases List.mem_cons.mp hs with h | h
        · exact h
        · exact absurd h hr
      subst hs0
      cases hh : s.head? with
      | some h0 =>
        simp only [reduce_loop, hn, hh] at hsucc
        refine reduce_loop_preserves_reduce snt terms rest _ _ _ _ _ hsucc (n, t) ?_
        exact ⟨rn0, insert_reduce_actions_mem terms at0 n rn0 t ht⟩
      | none =>
        simp only [reduce_loop, hn, hh] at hsucc
        exact Option.noConfusion hsucc

/-- The reduce phase only appends to the rule table. -/
theorem reduce_loop_rt_prefix {NT T : Type} [DecidableEq NT] [DecidableEq T]
    (snt : AutomatonState NT T → Option Nat) (terms : List T) :
    ∀ (rstates : List (AutomatonState NT T)) (rn0 : Nat) (rt0 : List (LR0Item NT T))
      (at0 : ATbl T) (rt : List (LR0Item NT T)) (at_ : ATbl T),
      reduce_loop snt terms rn0 rstates (rt0, at0) = some (rt, at_) →
      ∃ suf, rt = rt0 ++ suf := by
  intro rstates
  induction rstates with
  | nil =>
    intro rn0 rt0 at0 rt at_ hsucc
    have h := Option.some.inj hsucc
    injection h with h1 h2
    subst h1
    exact ⟨[], by simp⟩
  | cons s0 rest ih =>
    intro rn0 rt0 at0 rt at_ hsucc
    cases hn : snt s0 with
    | some n =>
      cases hh : s0.head? with
      | some h0 =>
        simp only [reduce_loop, hn, hh] at hsucc
        obtain ⟨suf, hsuf⟩ := ih _ _ _ _ _ hsucc
        exact ⟨h0 :: suf, by rw [hsuf]; simp⟩
      | none =>
        simp only [reduce_loop, hn, hh] at hsucc
        exact Option.noConfusion hsucc
    | none =>
      simp only [reduce_loop, hn] at hsucc
      exact ih _ _ _ _ _ hsucc

/-- When every reduce state receives a number, the rule table aligns with the
sorted reduce set: rule number r holds the item at position 0 of the r-th
reduce state. -/
theorem reduce_loop_rule_table {NT T : Type} [DecidableEq NT] [DecidableEq T]
    (snt : AutomatonState NT T → Option Nat) (terms : List T) :
    ∀ (rstates : List (AutomatonState NT T)) (rn0 : Nat) (rt0 : List (LR0Item NT T))
      (at0 : ATbl T) (rt : List (LR0Item NT T)) (at_ : ATbl T),
      reduce_loop snt terms rn0 rstates (rt0, at0) = some (rt, at_) →
      (∀ s, s ∈ rstates → (snt s).isSome) →
      ∀ (k : Nat) (s : AutomatonState NT T), rstates.get? k = some s →
        ∃ h, s.head? = some h ∧ rt.get? (rt0.length + k) = some h := by
  intro rstates
  induction rstates with
  | nil =>
    intro rn0 rt0 at0 rt at_ _ _ k s hk
    simp at hk
  | cons s0 rest ih =>
    intro rn0 rt0 at0 rt at_ hsucc hall k s hk
    have hn0 : (snt s0).isSome := hall s0 (List.mem_cons_self _ _)
    cases hn : snt s0 with
    | none => rw [hn] at hn0; simp at hn0
    | some n =>
      cases hh : s0.head? with
      | none =>
        simp only [reduce_loop, hn, hh] at hsucc
        exact Option.noConfusion hsucc
      | some h0 =>
        simp only [reduce_loop, hn, hh] at hsucc
        cases k with
        | zero =>
          have hs : s0 = s := by simpa using hk
          subst hs
          refine ⟨h0, hh, ?_⟩
          obtain ⟨suf, hsuf⟩ := reduce_loop_rt_prefix snt terms rest _ _ _ _ _ hsucc
          rw [hsuf]
          have : rt0 ++ [h0] ++ suf = rt0 ++ ([h0] ++ suf) := by simp
          rw [this, Nat.add_zero, List.get?_append_right (Nat.le_refl _)]
          simp
        | succ k2 =>
          have hk2 : rest.get? k2 = some s := by simpa using hk
          have hall2 : ∀ s2, s2 ∈ rest → (snt s2).isSome :=
            fun s2 h2 => hall s2 (List.mem_cons_of_mem _ h2)
          obtain ⟨h, hhead, hget⟩ := ih _ _ _ _ _ hsucc hall2 k2 s hk2
          refine ⟨h, hhead, ?_⟩
          have harith : rt0.length + (k2 + 1) = (rt0 ++ [h0]).length + k2 := by
            simp
            omega
          rw [harith]
          exact hget

/-- A transition-derived action is never a Reduce. -/
theorem transition_action_not_reduce {NT T : Type} [DecidableEq NT] [DecidableEq T]
    (snt : AutomatonState NT T → Option Nat) (ar : LR0Item NT T)
    (tgt : AutomatonState NT T) (a : ActionKind)
    (h : transition_action snt ar tgt = some a) : isReduceAction a = false := by
  unfold transition_action at h
  split at h
  · rw [← Option.some.inj h]
    rfl
  · split at h
    · obtain ⟨m, _, hm⟩ := Option.map_eq_some'.mp h
      rw [← hm]
      rfl
    · rw [← Option.some.inj h]
      rfl

/-- Case analysis of a transition-derived action: Accept exactly when the
target contains the accept item, Shift of the target's number when the target
is non-empty and not accepting, Error when the target is the empty item set. -/
theorem transition_action_cases {NT T : Type} [DecidableEq NT] [DecidableEq T]
    (snt : AutomatonState NT T → Option Nat) (ar : LR0Item NT T)
    (tgt : AutomatonState NT T) (a : ActionKind)
    (h : transition_action snt ar tgt = some a) :
    (a = ActionKind.Accept ∧ ar ∈ tgt) ∨
    (∃ m, a = ActionKind.Shift m ∧ ar ∉ tgt ∧ tgt ≠ [] ∧ snt tgt = some m) ∨
    (a = ActionKind.Error ∧ ar ∉ tgt ∧ tgt = []) := by
  unfold transition_action at h
  by_cases h1 : ar ∈ tgt
  · rw [if_pos h1] at h
    exact Or.inl ⟨(Option.some.inj h).symm, h1⟩
  · rw [if_neg h1] at h
    by_cases h2 : tgt = []
    · rw [if_neg (by simp [h2])] at h
      exact Or.inr (Or.inr ⟨(Option.some.inj h).symm, h1, h2⟩)
    · rw [if_pos h2] at h
      obtain ⟨m, hm1, hm2⟩ := Option.map_eq_some'.mp h
      exact Or.inr (Or.inl ⟨m, hm2.symm, h1, h2, hm1⟩)

/-- The transition-derived action of an accepting target. -/
theorem transition_action_accept {NT T : Type} [DecidableEq NT] [DecidableEq T]
    (snt : AutomatonState NT T → Option Nat) (ar : LR0Item NT T)
    (tgt : AutomatonState NT T) (h : ar ∈ tgt) :
    transition_action snt ar tgt = some ActionKind.Accept := by
  unfold transition_action
  rw [if_pos h]

/-- The transition-derived action of a non-empty non-accepting target. -/
theorem transition_action_shift {NT T : Type} [DecidableEq NT] [DecidableEq T]
    (snt : AutomatonState NT T → Option Nat) (ar : LR0Item NT T)
    (tgt : AutomatonState NT T) (m : Nat)
    (h1 : ar ∉ tgt) (h2 : tgt ≠ []) (h3 : snt tgt = some m) :
    transition_action snt ar tgt = some (ActionKind.Shift m) := by
  unfold transition_action
  rw [if_neg h1, if_pos h2, h3]
  rfl

/-- The transition-derived action of an empty target. -/
theorem transition_action_error {NT T : Type} [DecidableEq NT] [DecidableEq T]
    (snt : AutomatonState NT T → Option Nat) (ar : LR0Item NT T)
    (tgt : AutomatonState NT T) (h1 : ar ∉ tgt) (h2 : tgt = []) :
    transition_action snt ar tgt = some ActionKind.Error := by
  unfold transition_action
  rw [if_neg h1, if_neg (by simp [h2])]

/-- The transition phase never removes an action-table entry. -/
theorem transition_loop_preserves_isSome {NT T : Type} [DecidableEq NT] [DecidableEq T]
    (snt : AutomatonState NT T → Option Nat) (ar : LR0Item NT T) :
    ∀ (ts : List (TransEntry NT T)) (at0 : ATbl T) (gt0 : GTbl NT)
      (at1 : ATbl T) (gt1 : GTbl NT),
      transition_loop snt ar ts (at0, gt0) = some (at1, gt1) →
      ∀ k, (at0 k).isSome → (at1 k).isSome := by
  intro ts
  induction ts with
  | nil =>
    intro at0 gt0 at1 gt1 hsucc k hk
    have h := Option.some.inj hsucc
    injection h with h1 h2
    subst h1
    exact hk
  | cons e0 rest ih =>
    obtain ⟨⟨fr, sym⟩, tgt⟩ := e0
    intro at0 gt0 at1 gt1 hsucc k hk
    cases sym with
    | Term t =>
      cases hta : transition_action snt ar tgt with
      | none =>
        simp only [transition_loop, hta] at hsucc
        exact Option.noConfusion hsucc
      | some rule =>
        cases hfn : snt fr with
        | none =>
          simp only [transition_loop, hta, hfn] at hsucc
          exact Option.noConfusion hsucc
        | some fn =>
          simp only [transition_loop, hta, hfn] at hsucc
          refine ih _ _ _ _ hsucc k ?_
          by_cases hkk : k = (fn, t)
          · rw [hkk, insertF_self]
            rfl
          · rw [insertF_ne _ _ _ _ hkk]
            exact hk
    | NonTerm nt =>
      cases hfn : snt fr with
      | none =>
        simp only [transition_loop, hfn] at hsucc
        exact Option.noConfusion hsucc
      | some fn =>
        cases htn : snt tgt with
        | none =>
          simp only [transition_loop, hfn, htn] at hsucc
          exact Option.noConfusion hsucc
        | some tn =>
          simp only [transition_loop, hfn, htn] at hsucc
          exact ih _ _ _ _ hsucc k hk

/-- An action-table key that no transition entry writes keeps its value
through the transition phase. -/
theorem transition_loop_no_writer {NT T : Type} [DecidableEq NT] [DecidableEq T]
    (snt : AutomatonState NT T → Option Nat) (ar : LR0Item NT T) :
    ∀ (ts : List (TransEntry NT T)) (at0 : ATbl T) (gt0 : GTbl NT)
      (at1 : ATbl T) (gt1 : GTbl NT),
      transition_loop snt ar ts (at0, gt0) = some (at1, gt1) →
      ∀ (n : Nat) (t : T),
        (∀ fr tgt, ((fr, Symbol.Term t), tgt) ∈ ts → snt fr ≠ some n) →
        at1 (n, t) = at0 (n, t) := by
  intro ts
  induction ts with
  | nil =>
    intro at0 gt0 at1 gt1 hsucc n t _
    have h := Option.some.inj hsucc
    injection h with h1 h2
    subst h1
    rfl
  | cons e0 rest ih =>
    obtain ⟨⟨fr0, sym⟩, tgt0⟩ := e0
    intro at0 gt0 at1 gt1 hsucc n t hno
    cases sym with
    | Term t0 =>
      cases hta : transition_action snt ar tgt0 with
      | none =>
        simp only [transition_loop, hta] at hsucc
        exact Option.noConfusion hsucc
      | some rule =>
        cases hfn : snt fr0 with
        | none =>
          simp only [transition_loop, hta, hfn] at hsucc
          exact Option.noConfusion hsucc
        | some fn =>
          simp only [transition_loop, hta, hfn] at hsucc
          have hrest : ∀ fr tgt, ((fr, Symbol.Term t), tgt) ∈ rest → snt fr ≠ some n :=
            fun fr tgt hmem => hno fr tgt (List.mem_cons_of_mem _ hmem)
          rw [ih _ _ _ _ hsucc n t hrest]
          refine insertF_ne _ _ _ _ ?_
          intro heq
          have ht0 : t = t0 := congrArg Prod.snd heq
          have hn0 : n = fn := congrArg Prod.fst heq
          subst ht0
          exact hno fr0 tgt0 (List.mem_cons_self _ _) (hn0 ▸ hfn)
    | NonTerm nt =>
      cases hfn : snt fr0 with
      | none =>
        simp only [transition_loop, hfn] at hsucc
        exact Option.noConfusion hsucc
      | some fn =>
        cases htn : snt tgt0 with
        | none =>
          simp only [transition_loop, hfn, htn] at hsucc
          exact Option.noConfusion hsucc
        | some tn =>
          simp only [transition_loop, hfn, htn] at hsucc
          have hrest : ∀ fr tgt, ((fr, Symbol.Term t), tgt) ∈ rest → snt fr ≠ some n :=
            fun fr tgt hmem => hno fr tgt (List.mem_cons_of_mem _ hmem)
          exact ih _ _ _ _ hsucc n t hrest

/-- When the transition map's keys are distinct and state numbering is
injective, the final action-table entry at the key of a terminal transition
is exactly that transition's derived action. -/
theorem transition_loop_writer {NT T : Type} [DecidableEq NT] [DecidableEq T]
    (snt : AutomatonState NT T → Option Nat) (ar : LR0Item NT T)
    (hinj : ∀ a b i, snt a = some i → snt b = some i → a = b) :
    ∀ (ts : List (TransEntry NT T)) (at0 : ATbl T) (gt0 : GTbl NT)
      (at1 : ATbl T) (gt1 : GTbl NT),
      transition_loop snt ar ts (at0, gt0) = some (at1, gt1) →
      (ts.map Prod.fst).Nodup →
      ∀ (fr tgt : AutomatonState NT T) (t : T) (n : Nat),
        ((fr, Symbol.Term t), tgt) ∈ ts → snt fr = some n →
        ∃ a, transition_action snt ar tgt = some a ∧ at1 (n, t) = some a := by
  intro ts
  induction ts with
  | nil =>
    intro at0 gt0 at1 gt1 _ _ fr tgt t n hmem _
    exact absurd hmem (List.not_mem_nil _)
  | cons e0 rest ih =>
    obtain ⟨⟨fr0, sym⟩, tgt0⟩ := e0
    intro at0 gt0 at1 gt1 hsucc hnd fr tgt t n hmem hn
    rcases List.mem_cons.mp hmem with heq | hrest_mem
    · have hfr0 : fr0 = fr := by
        have := congrArg (fun e => e.1.1) heq
        exact this.symm
      have hsym : sym = Symbol.Term t := by
        have := congrArg (fun e => e.1.2) heq
        exact this.symm
      have htgt0 : tgt0 = tgt := by
        have := congrArg (fun e => e.2) heq
        exact this.symm
      subst hfr0
      subst hsym
      subst htgt0
      cases hta : transition_action snt ar tgt0 with
      | none =>
        simp only [transition_loop, hta] at hsucc
        exact Option.noConfusion hsucc
      | some rule =>
        cases hfn : snt fr0 with
        | none =>
          simp only [transition_loop, hta, hfn] at hsucc
          exact Option.noConfusion hsucc
        | some fn =>
          have hfnn : fn = n := by
            rw [hfn] at hn
            exact Option.some.inj hn
          subst hfnn
          simp only [transition_loop, hta, hfn] at hsucc
          refine ⟨rule, rfl, ?_⟩
          have hno : ∀ fr2 tgt2, ((fr2, Symbol.Term t), tgt2) ∈ rest → snt fr2 ≠ some fn := by
            intro fr2 tgt2 hmem2 hsnt2
            have hfr2 : fr2 = fr0 := hinj fr2 fr0 fn hsnt2 hfn
            subst hfr2
            have hkey : (fr2, Symbol.Term t) ∈ rest.map Prod.fst :=
              List.mem_map.mpr ⟨((fr2, Symbol.Term t), tgt2), hmem2, rfl⟩
            have hhead := (List.nodup_cons.mp hnd).1
            exact hhead hkey
          rw [transition_loop_no_writer snt ar rest _ _ _ _ hsucc fn t hno, insertF_self]
    · cases sym with
      | Term t0 =>
        cases hta : transition_action snt ar tgt0 with
        | none =>
          simp only [transition_loop, hta] at hsucc
          exact Option.noConfusion hsucc
        | some rule =>
          cases hfn : snt fr0 with
          | none =>
            simp only [transition_loop, hta, hfn] at hsucc
            exact Option.noConfusion hsucc
          | some fn =>
            simp only [transition_loop, hta, hfn] at hsucc
            exact ih _ _ _ _ hsucc (List.nodup_cons.mp hnd).2 fr tgt t n hrest_mem hn
      | NonTerm nt =>
        cases hfn : snt fr0 with
        | none =>
          simp only [transition_loop, hfn] at hsucc
          exact Option.noConfusion hsucc
        | some fn =>
          cases htn : snt tgt0 with
          | none =>
            simp only [transition_loop, hfn, htn] at hsucc
            exact Option.noConfusion hsucc
          | some tn =>
            simp only [transition_loop, hfn, htn] at hsucc
            exact ih _ _ _ _ hsucc (List.nodup_cons.mp hnd).2 fr tgt t n hrest_mem hn

/-- A successful construction decomposes into a successful reduce phase
followed by a successful transition phase, with the parser assembled from
their results. -/
theorem canonical_decomp {NT T : Type} [DecidableEq NT] [DecidableEq T]
    [LinearOrder NT] [LinearOrder T]
    (states : List (AutomatonState NT T)) (transitions : List (TransEntry NT T))
    (ext st : NT) (eof : T) (terms : List T) (p : LR0Parser NT T)
    (hp : canonical_automaton_to_lr0 states transitions ext st eof terms = some p) :
    ∃ ssn rt at0 at1 gt1,
      reduce_loop (state_number_table states) terms 0
          (reduce_states states (accept_item ext st eof)) ([], fun _ => none) = some (rt, at0) ∧
      transition_loop (state_number_table states) (accept_item ext st eof)
          transitions (at0, fun _ => none) = some (at1, gt1) ∧
      p = { input := [], cursor := 0, action_table := at1, goto_table := gt1,
            stack := [ssn], rule_table := rt } := by
  cases hfind : ((sorted_states states).find?
      (fun s => decide (start_item ext st eof ∈ s))).bind (state_number_table states) with
  | none =>
    simp only [canonical_automaton_to_lr0, hfind] at hp
    exact Option.noConfusion hp
  | some ssn =>
    cases hred : reduce_loop (state_number_table states) terms 0
        (reduce_states states (accept_item ext st eof)) ([], fun _ => none) with
    | none =>
      simp only [canonical_automaton_to_lr0, hfind, hred] at hp
      exact Option.noConfusion hp
    | some pr =>
      obtain ⟨rt, at0⟩ := pr
      cases htr : transition_loop (state_number_table states) (accept_item ext st eof)
          transitions (at0, fun _ => none) with
      | none =>
        simp only [canonical_automaton_to_lr0, hfind, hred, htr] at hp
        exact Option.noConfusion hp
      | some pr2 =>
        obtain ⟨at1, gt1⟩ := pr2
        simp only [canonical_automaton_to_lr0, hfind, hred, htr] at hp
        exact ⟨ssn, rt, at0, at1, gt1, rfl, htr, (Option.some.inj hp).symm⟩

/-- The empty-input, empty-table parser used as a default value and as a
concrete engine state with exhausted input. -/
def pdefault : LR0Parser Nat Nat :=
  ⟨[], 0, fun _ => none, fun _ => none, [0], []⟩

/-- Claim C1: the run-to-completion loop of export_parsing_as_latex_src is
required to terminate with a reported failure once the cursor reaches or
passes the end of the input. The code has no such guard: from any engine
state with exhausted input, every iteration of the loop body skips the
`if let` on the lookahead, changes nothing, and never breaks, so the loop
spins forever. -/
theorem C1_export_loop_spins {NT T : Type} (p : LR0Parser NT T)
    (h : p.input.length ≤ p.cursor) :
    ∀ n, export_run n p = some (false, p) := by
  intro n
  induction n with
  | zero => rfl
  | succ n ih =>
    have hx : p.input.get? p.cursor = none := by
      rw [List.get?_eq_none]
      exact h
    simp only [export_run, export_iter, hx]
    exact ih

/-- Witness for C1: a concrete parser with empty input is still running,
unchanged, after four iterations of the export loop. -/
theorem C1_export_loop_spins_witness : export_run 4 pdefault = some (false, pdefault) :=
  C1_export_loop_spins pdefault (by decide) 4

/-- Claim C10: when the cursor is at or past the end of the input, step_once
returns without modifying anything and without reporting any failure: the
noop outcome, with the engine state returned unchanged. -/
theorem C10_exhausted_input_noop {NT T : Type} (p : LR0Parser NT T)
    (h : p.input.length ≤ p.cursor) :
    step_once p = some (StepOutcome.noop, p) := by
  have hx : p.input.get? p.cursor = none := by
    rw [List.get?_eq_none]
    exact h
  simp only [step_once, hx]

/-- Concrete engine state with exhausted input for the C10 witness. -/
def pC10 : LR0Parser Nat Nat :=
  ⟨[7], 1, fun _ => none, fun _ => none, [0], []⟩

/-- Witness for C10: stepping a concrete parser whose cursor equals the input
length is a silent no-op. -/
theorem C10_exhausted_input_noop_witness : step_once pC10 = some (StepOutcome.noop, pC10) :=
  C10_exhausted_input_noop pC10 (by decide)

/-- Claim C7: when the lookahead exists and either the action table has no
entry for (current state, lookahead) or the entry is Error, step_once reports
a syntax error (noAction and errorAction respectively) and returns the engine
state unchanged. -/
theorem C7_syntax_error_preserves_state {NT T : Type} (p : LR0Parser NT T) (x : T) (q : Nat)
    (hx : p.input.get? p.cursor = some x)
    (hq : p.stack.get? (p.stack.length - 1) = some q) :
    (p.action_table (q, x) = none → step_once p = some (StepOutcome.noAction, p)) ∧
    (p.action_table (q, x) = some ActionKind.Error →
      step_once p = some (StepOutcome.errorAction, p)) := by
  constructor
  · intro ha
    simp only [step_once, hx, hq, ha]
  · intro ha
    simp only [step_once, hx, hq, ha]

/-- Concrete engine state with no action entry for the C7 witness. -/
def pC7 : LR0Parser Nat Nat :=
  ⟨[5], 0, fun _ => none, fun _ => none, [0], []⟩

/-- Concrete engine state with an Error action entry for the C7 witness. -/
def pC7e : LR0Parser Nat Nat :=
  ⟨[5], 0, fun k => if k = (0, 5) then some ActionKind.Error else none, fun _ => none, [0], []⟩

/-- Witness for C7: a missing entry yields noAction and an Error entry yields
errorAction, both leaving the concrete engine state untouched. -/
theorem C7_syntax_error_preserves_state_witness :
    step_once pC7 = some (StepOutcome.noAction, pC7) ∧
    step_once pC7e = some (StepOutcome.errorAction, pC7e) :=
  ⟨(C7_syntax_error_preserves_state pC7 5 0 (by decide) (by decide)).1 (by decide),
   (C7_syntax_error_preserves_state pC7e 5 0 (by decide) (by decide)).2 (by decide)⟩

/-- Claim C6: executing Reduce(r) pops exactly k = right-hand length of rule
r states, fails fatally (none) when the stack has fewer than k + 1 entries or
the goto entry for (new top, rule's left nonterminal) is absent, and
otherwise pushes that goto entry and leaves the cursor unchanged. -/
theorem C6_reduce_semantics {NT T : Type} (p : LR0Parser NT T) (x : T) (q r : Nat)
    (item : LR0Item NT T)
    (hx : p.input.get? p.cursor = some x)
    (hq : p.stack.get? (p.stack.length - 1) = some q)
    (ha : p.action_table (q, x) = some (ActionKind.Reduce r))
    (hi : p.rule_table.get? r = some item) :
    (pop_states p.stack item.right.length).length = p.stack.length - item.right.length ∧
    (p.stack.length < item.right.length + 1 → step_once p = none) ∧
    (item.right.length + 1 ≤ p.stack.length →
      ∀ q2, (pop_states p.stack item.right.length).get?
          ((pop_states p.stack item.right.length).length - 1) = some q2 →
        (p.goto_table (q2, item.left) = none → step_once p = none) ∧
        (∀ g, p.goto_table (q2, item.left) = some g →
          step_once p = some (StepOutcome.reduce r,
            { p with stack := pop_states p.stack item.right.length ++ [g],
                     cursor := p.cursor }))) := by
  have hstep : step_once p = reduce_step p r item := by
    simp only [step_once, hx, hq, ha, hi]
  refine ⟨?_, ?_, ?_⟩
  · unfold pop_states
    rw [List.length_take]
    omega
  · intro hlen
    have hempty : pop_states p.stack item.right.length = [] := by
      unfold pop_states
      have hz : p.stack.length - item.right.length = 0 := by omega
      rw [hz]
      simp
    rw [hstep]
    simp [reduce_step, hempty]
  · intro hlen q2 hq2
    rw [hstep]
    constructor
    · intro hg
      simp only [reduce_step, hq2, hg]
    · intro g hg
      simp only [reduce_step, hq2, hg]

/-- Concrete engine state about to execute a Reduce for the C6 witness. -/
def pC6 : LR0Parser Nat Nat :=
  ⟨[0], 0,
   fun k => if k = (1, 0) then some (ActionKind.Reduce 0) else none,
   fun k => if k = (0, 1) then some 2 else none,
   [0, 1],
   [⟨1, [Symbol.Term 0], 1⟩]⟩

/-- Witness for C6: the concrete Reduce pops one state, pushes the goto
target 2, and leaves the cursor where it was. -/
theorem C6_reduce_semantics_witness :
    step_once pC6 = some (StepOutcome.reduce 0,
      { pC6 with stack := pop_states pC6.stack 1 ++ [2], cursor := pC6.cursor }) :=
  ((C6_reduce_semantics pC6 0 1 0 ⟨1, [Symbol.Term 0], 1⟩
      (by decide) (by decide) (by decide) (by decide)).2.2
    (by decide) 0 (by decide)).2 2 (by decide)

/-- The two-state automaton whose start state is numbered 1, feeding C5: the
state containing the augmented start item is listed second. -/
def sC5a : AutomatonState Nat Nat := [⟨1, [Symbol.Term 0], 0⟩]

/-- The start-item state of the C5 automaton. -/
def sC5b : AutomatonState Nat Nat := [⟨0, [Symbol.NonTerm 1, Symbol.Term 1], 0⟩]

/-- The state list of the C5 automaton. -/
def statesC5 : List (AutomatonState Nat Nat) := [sC5a, sC5b]

/-- Claim C5 fails on the code: the parser built from an automaton whose
start-item state is numbered 1 starts with stack [1], but reset() sets the
stack to the literal [0] instead of the start state's number (it does clear
the cursor and input). -/
theorem C5_reset_uses_literal_zero :
    (canonical_automaton_to_lr0 statesC5 ([] : List (TransEntry Nat Nat))
        0 1 1 [0, 1]).map
      (fun p => (p.stack, (reset p).stack, (reset p).cursor, (reset p).input)) =
    some ([1], [0], 0, []) := by
  decide

/-- In a transition map with distinct keys, a key determines its target. -/
theorem trans_entry_unique {NT T : Type} [DecidableEq NT] [DecidableEq T]
    (ts : List (TransEntry NT T)) (hnd : (ts.map Prod.fst).Nodup)
    (k : AutomatonState NT T × Symbol NT T) (t1 t2 : AutomatonState NT T)
    (h1 : (k, t1) ∈ ts) (h2 : (k, t2) ∈ ts) : t1 = t2 := by
  have heq : (k, t1) = (k, t2) := List.inj_on_of_nodup_map hnd h1 h2 rfl
  exact congrArg Prod.snd heq

/-- Start-item state of the concrete conflict automaton. -/
def sEx0 : AutomatonState Nat Nat := [⟨0, [Symbol.NonTerm 1, Symbol.Term 1], 0⟩]

/-- Shift/reduce conflict state of the concrete automaton: one complete
non-accept item together with an incomplete item. -/
def sEx1 : AutomatonState Nat Nat :=
  [⟨1, [Symbol.Term 0], 1⟩, ⟨1, [Symbol.Term 0, Symbol.Term 0], 1⟩]

/-- Plain reduce state: the target of the terminal transition out of sEx1. -/
def sEx2 : AutomatonState Nat Nat := [⟨1, [Symbol.Term 0, Symbol.Term 0], 2⟩]

/-- The state list of the concrete conflict automaton. -/
def statesEx : List (AutomatonState Nat Nat) := [sEx0, sEx1, sEx2]

/-- Its transition map: a single terminal transition out of the conflict
state. -/
def tsEx : List (TransEntry Nat Nat) := [((sEx1, Symbol.Term 0), sEx2)]

/-- The parser built from the concrete conflict automaton (alphabet {0, 1},
eof 1, extended start 0, start 1). -/
def pEx : LR0Parser Nat Nat :=
  (canonical_automaton_to_lr0 statesEx tsEx 0 1 1 [0, 1]).getD pdefault

/-- The concrete conflict-automaton construction succeeds and yields pEx. -/
theorem pEx_spec : canonical_automaton_to_lr0 statesEx tsEx 0 1 1 [0, 1] = some pEx := by
  rfl


/-- Claim C2: for every (state, terminal) key whose state is in the reduce
set and for which the automaton has a terminal transition from that state,
the final action-table entry is the transition-derived action (Accept, Shift
or Error), never a Reduce: reduce entries are installed first for all
terminals and the transition-derived entries installed afterwards overwrite
them. -/
theorem C2_transition_overwrites_reduce {NT T : Type}
    [DecidableEq NT] [DecidableEq T] [LinearOrder NT] [LinearOrder T]
    (states : List (AutomatonState NT T)) (transitions : List (TransEntry NT T))
    (ext st : NT) (eof : T) (terms : List T) (p : LR0Parser NT T)
    (hp : canonical_automaton_to_lr0 states transitions ext st eof terms = some p)
    (hnd : (transitions.map Prod.fst).Nodup)
    (fr tgt : AutomatonState NT T) (t : T) (n : Nat)
    (hmem : ((fr, Symbol.Term t), tgt) ∈ transitions)
    (hn : state_number_table states fr = some n)
    (hfr : fr ∈ reduce_states states (accept_item ext st eof)) :
    ∃ a, transition_action (state_number_table states) (accept_item ext st eof) tgt = some a ∧
      p.action_table (n, t) = some a ∧ isReduceAction a = false := by
  obtain ⟨ssn, rt, at0, at1, gt1, hred, htr, hpe⟩ :=
    canonical_decomp states transitions ext st eof terms p hp
  obtain ⟨a, hta, hat⟩ := transition_loop_writer (state_number_table states)
    (accept_item ext st eof)
    (fun a b i h1 h2 => state_number_table_inj states a b i h1 h2)
    transitions at0 (fun _ => none) at1 gt1 htr hnd fr tgt t n hmem hn
  refine ⟨a, hta, ?_, transition_action_not_reduce _ _ _ _ hta⟩
  rw [hpe]
  exact hat

/-- Witness for C2: in the concrete conflict automaton, reduce-set state 1
has a transition on terminal 0 and the final entry there is the
transition-derived action (Shift 2), not a Reduce. -/
theorem C2_transition_overwrites_reduce_witness :
    ∃ a, transition_action (state_number_table statesEx) (accept_item 0 1 1) sEx2 = some a ∧
      pEx.action_table (1, 0) = some a ∧ isReduceAction a = false :=
  C2_transition_overwrites_reduce statesEx tsEx 0 1 1 [0, 1] pEx pEx_spec (by decide)
    sEx1 sEx2 0 1 (by decide) (by decide) (by decide)

/-- Counterexample to claim C3: state sEx1 (number 1) is a shift/reduce
conflict state and is in the reduce set, yet the final action-table entry at
(1, terminal 0) is Shift 2 - the shift won over the reduction, so not every
terminal at that state maps to Reduce. -/
theorem C3_counterexample :
    sEx1 ∈ reduce_states statesEx (accept_item 0 1 1) ∧
    (complete_items (accept_item 0 1 1) sEx1).length = 1 ∧
    1 < sEx1.length ∧
    state_number_table statesEx sEx1 = some 1 ∧
    (0 : Nat) ∈ [0, 1] ∧
    pEx.action_table (1, 0) = some (ActionKind.Shift 2) ∧
    (pEx.action_table (1, 0)).map isReduceAction = some false := by
  decide

/-- Claim C3 (amended): a shift/reduce conflict state (exactly one complete
non-accept item plus other items) is included in the reduce set, and the
reduction wins only at the terminals for which the automaton has no
transition entry keyed to that state: there the final entry is Reduce. At a
terminal with a transition, the transition-derived entry overwrites the
Reduce, so the reduction does not win unconditionally. -/
theorem C3_conflict_in_reduce_set_amended {NT T : Type}
    [DecidableEq NT] [DecidableEq T] [LinearOrder NT] [LinearOrder T]
    (states : List (AutomatonState NT T)) (transitions : List (TransEntry NT T))
    (ext st : NT) (eof : T) (terms : List T) (p : LR0Parser NT T)
    (hp : canonical_automaton_to_lr0 states transitions ext st eof terms = some p)
    (s : AutomatonState NT T) (n : Nat)
    (hs : s ∈ states)
    (hconf : (complete_items (accept_item ext st eof) s).length = 1 ∧ 1 < s.length)
    (hn : state_number_table states s = some n) :
    s ∈ reduce_states states (accept_item ext st eof) ∧
    ∀ t, t ∈ terms →
      (∀ fr tgt, ((fr, Symbol.Term t), tgt) ∈ transitions →
        state_number_table states fr ≠ some n) →
      ∃ r, p.action_table (n, t) = some (ActionKind.Reduce r) := by
  have hmem : s ∈ reduce_states states (accept_item ext st eof) := by
    unfold reduce_states
    rw [mem_sortedDedup]
    refine List.mem_filter.mpr ⟨hs, ?_⟩
    unfold is_reduce_state
    rw [hconf.1]
    simp [hconf.2]
  refine ⟨hmem, ?_⟩
  intro t ht hno
  obtain ⟨ssn, rt, at0, at1, gt1, hred, htr, hpe⟩ :=
    canonical_decomp states transitions ext st eof terms p hp
  have hkeep := transition_loop_no_writer (state_number_table states)
    (accept_item ext st eof) transitions at0 (fun _ => none) at1 gt1 htr n t hno
  obtain ⟨r, hr⟩ := reduce_loop_mem_reduce (state_number_table states) terms
    (reduce_states states (accept_item ext st eof)) 0 [] (fun _ => none) rt at0 hred
    s n t hmem hn ht
  refine ⟨r, ?_⟩
  rw [hpe]
  show at1 (n, t) = some (ActionKind.Reduce r)
  rw [hkeep]
  exact hr

/-- Witness for the amended C3: in the concrete conflict automaton the
conflict state is in the reduce set and the final entry at (1, terminal 1) -
a terminal without a transition from state 1 - is a Reduce. -/
theorem C3_conflict_in_reduce_set_amended_witness :
    sEx1 ∈ reduce_states statesEx (accept_item 0 1 1) ∧
    ∃ r, pEx.action_table (1, 1) = some (ActionKind.Reduce r) := by
  have h := C3_conflict_in_reduce_set_amended statesEx tsEx 0 1 1 [0, 1] pEx pEx_spec
    sEx1 1 (by decide) (by decide) (by decide)
  refine ⟨h.1, h.2 1 (by decide) ?_⟩
  intro fr tgt hmem
  rcases List.mem_cons.mp hmem with heq | hnil
  · have h12 : (Symbol.Term 1 : Symbol Nat Nat) = Symbol.Term 0 :=
      congrArg (fun e => e.1.2) heq
    simp at h12
  · exact absurd hnil (List.not_mem_nil _)

/-- Reduce-set state listing its incomplete item before its unique complete
non-accept item, feeding the C4 counterexample. -/
def sEx3 : AutomatonState Nat Nat :=
  [⟨1, [Symbol.Term 0, Symbol.Term 0], 1⟩, ⟨1, [Symbol.Term 0], 1⟩]

/-- Automaton whose only reduce state is sEx3. -/
def statesEx2 : List (AutomatonState Nat Nat) := [sEx0, sEx3]

/-- The parser built from it (no transitions). -/
def pEx2 : LR0Parser Nat Nat :=
  (canonical_automaton_to_lr0 statesEx2 [] 0 1 1 [0, 1]).getD pdefault

/-- The concrete C4 construction succeeds and yields pEx2. -/
theorem pEx2_spec :
    canonical_automaton_to_lr0 statesEx2 ([] : List (TransEntry Nat Nat)) 0 1 1 [0, 1] =
      some pEx2 := by
  rfl

/-- Counterexample to claim C4: sEx3 is the only reduce-set state, so its
rule number is 0; its unique complete non-accept item is the second listed
item, but the rule table entry at index 0 is the first listed item, which is
not even complete. -/
theorem C4_counterexample :
    reduce_states statesEx2 (accept_item 0 1 1) = [sEx3] ∧
    complete_items (accept_item 0 1 1) sEx3 = [⟨1, [Symbol.Term 0], 1⟩] ∧
    pEx2.rule_table.get? 0 = some ⟨1, [Symbol.Term 0, Symbol.Term 0], 1⟩ ∧
    (⟨1, [Symbol.Term 0, Symbol.Term 0], 1⟩ : LR0Item Nat Nat) ≠ ⟨1, [Symbol.Term 0], 1⟩ ∧
    (⟨1, [Symbol.Term 0, Symbol.Term 0], 1⟩ : LR0Item Nat Nat).dot_pos ≠
      (⟨1, [Symbol.Term 0, Symbol.Term 0], 1⟩ : LR0Item Nat Nat).right.length := by
  decide

/-- Claim C4 (amended): for each reduce-set state, at its rule number r the
rule table holds the item listed first in that state (the head of its item
list) - which coincides with the unique complete non-accept item only when
that item is listed first, for instance when the state has one single item -
and a step executing Reduce(r) takes its pop count and goto nonterminal from
exactly this entry (reduce_step pops h.right.length states and keys the goto
table with h.left). -/
theorem C4_rule_table_amended {NT T : Type}
    [DecidableEq NT] [DecidableEq T] [LinearOrder NT] [LinearOrder T]
    (states : List (AutomatonState NT T)) (transitions : List (TransEntry NT T))
    (ext st : NT) (eof : T) (terms : List T) (p : LR0Parser NT T)
    (hp : canonical_automaton_to_lr0 states transitions ext st eof terms = some p)
    (k : Nat) (s : AutomatonState NT T)
    (hk : (reduce_states states (accept_item ext st eof)).get? k = some s) :
    ∃ h, s.head? = some h ∧ p.rule_table.get? k = some h ∧
      ∀ (p2 : LR0Parser NT T) (x : T) (q : Nat),
        p2.rule_table = p.rule_table →
        p2.input.get? p2.cursor = some x →
        p2.stack.get? (p2.stack.length - 1) = some q →
        p2.action_table (q, x) = some (ActionKind.Reduce k) →
        step_once p2 = reduce_step p2 k h := by
  obtain ⟨ssn, rt, at0, at1, gt1, hred, htr, hpe⟩ :=
    canonical_decomp states transitions ext st eof terms p hp
  have hall : ∀ s2, s2 ∈ reduce_states states (accept_item ext st eof) →
      ((state_number_table states) s2).isSome := by
    intro s2 hs2
    have hs2m : s2 ∈ states := by
      unfold reduce_states at hs2
      rw [mem_sortedDedup] at hs2
      exact (List.mem_filter.mp hs2).1
    obtain ⟨i, hi⟩ := state_number_table_total states s2 hs2m
    rw [hi]
    rfl
  obtain ⟨h, hhead, hget⟩ := reduce_loop_rule_table (state_number_table states) terms
    (reduce_states states (accept_item ext st eof)) 0 [] (fun _ => none) rt at0 hred
    hall k s hk
  have hrt : p.rule_table.get? k = some h := by
    rw [hpe]
    show rt.get? k = some h
    simpa using hget
  refine ⟨h, hhead, hrt, ?_⟩
  intro p2 x q hrt2 hx hq ha
  have hi : p2.rule_table.get? k = some h := by
    rw [hrt2]
    exact hrt
  simp only [step_once, hx, hq, ha, hi]

/-- Witness for the amended C4: in the concrete automaton the rule-0 entry is
the head of the (sorted first) reduce state sEx3, and any engine whose action
is Reduce 0 executes reduce_step with that entry. -/
theorem C4_rule_table_amended_witness :
    ∃ h, sEx3.head? = some h ∧ pEx2.rule_table.get? 0 = some h ∧
      ∀ (p2 : LR0Parser Nat Nat) (x : Nat) (q : Nat),
        p2.rule_table = pEx2.rule_table →
        p2.input.get? p2.cursor = some x →
        p2.stack.get? (p2.stack.length - 1) = some q →
        p2.action_table (q, x) = some (ActionKind.Reduce 0) →
        step_once p2 = reduce_step p2 0 h :=
  C4_rule_table_amended statesEx2 [] 0 1 1 [0, 1] pEx2 pEx2_spec 0 sEx3 (by decide)

/-- Counterexample to claim C8: reduce-set state 1 of the concrete conflict
automaton has no Reduce entry at alphabet terminal 0 in the final table: the
transition overlay replaced it with Shift 2, leaving a non-Reduce entry. -/
theorem C8_counterexample :
    sEx1 ∈ reduce_states statesEx (accept_item 0 1 1) ∧
    state_number_table statesEx sEx1 = some 1 ∧
    (0 : Nat) ∈ [0, 1] ∧
    (pEx.action_table (1, 0)).map isReduceAction = some false := by
  decide

/-- Claim C8 (amended): for every reduce-set state and every terminal of the
alphabet, the reduce phase installs a Reduce entry at that key (no gaps), and
the final table still has an entry there - but it is a Reduce only where no
transition-derived entry overwrote it. -/
theorem C8_reduce_totality_amended {NT T : Type}
    [DecidableEq NT] [DecidableEq T] [LinearOrder NT] [LinearOrder T]
    (states : List (AutomatonState NT T)) (transitions : List (TransEntry NT T))
    (ext st : NT) (eof : T) (terms : List T) (p : LR0Parser NT T)
    (hp : canonical_automaton_to_lr0 states transitions ext st eof terms = some p)
    (s : AutomatonState NT T) (n : Nat) (t : T)
    (hs : s ∈ reduce_states states (accept_item ext st eof))
    (hn : state_number_table states s = some n)
    (ht : t ∈ terms) :
    ∃ rt at0,
      reduce_loop (state_number_table states) terms 0
        (reduce_states states (accept_item ext st eof)) ([], fun _ => none) = some (rt, at0) ∧
      (∃ r, at0 (n, t) = some (ActionKind.Reduce r)) ∧
      (p.action_table (n, t)).isSome = true := by
  obtain ⟨ssn, rt, at0, at1, gt1, hred, htr, hpe⟩ :=
    canonical_decomp states transitions ext st eof terms p hp
  obtain ⟨r, hr⟩ := reduce_loop_mem_reduce (state_number_table states) terms
    (reduce_states states (accept_item ext st eof)) 0 [] (fun _ => none) rt at0 hred
    s n t hs hn ht
  refine ⟨rt, at0, hred, ⟨r, hr⟩, ?_⟩
  rw [hpe]
  show (at1 (n, t)).isSome = true
  refine transition_loop_preserves_isSome (state_number_table states)
    (accept_item ext st eof) transitions at0 (fun _ => none) at1 gt1 htr (n, t) ?_
  rw [hr]
  rfl

/-- Witness for the amended C8: at reduce-set state 1 and terminal 0 of the
concrete conflict automaton the reduce phase installed a Reduce and the final
table still has an entry. -/
theorem C8_reduce_totality_amended_witness :
    ∃ rt at0,
      reduce_loop (state_number_table statesEx) [0, 1] 0
        (reduce_states statesEx (accept_item 0 1 1)) ([], fun _ => none) = some (rt, at0) ∧
      (∃ r, at0 (1, 0) = some (ActionKind.Reduce r)) ∧
      (pEx.action_table (1, 0)).isSome = true :=
  C8_reduce_totality_amended statesEx tsEx 0 1 1 [0, 1] pEx pEx_spec sEx1 1 0
    (by decide) (by decide) (by decide)

/-- Claim C9: in the built action table, a (state, terminal) entry is Accept
iff the automaton transition for that key targets a state containing the
unique accept item; Shift m iff the transition exists, its target is
non-empty, not accepting, and numbered m; and Error iff the transition entry
exists with the empty item set as target (the code's reading of a
non-existent target, per step 5 of the construction); where no transition
entry exists at all, a previously installed reduce entry stands instead and
none of these three shapes arises from it. -/
theorem C9_shift_accept_exclusivity {NT T : Type}
    [DecidableEq NT] [DecidableEq T] [LinearOrder NT] [LinearOrder T]
    (states : List (AutomatonState NT T)) (transitions : List (TransEntry NT T))
    (ext st : NT) (eof : T) (terms : List T) (p : LR0Parser NT T)
    (hp : canonical_automaton_to_lr0 states transitions ext st eof terms = some p)
    (hnd : (transitions.map Prod.fst).Nodup)
    (n : Nat) (t : T) :
    (p.action_table (n, t) = some ActionKind.Accept ↔
      ∃ fr tgt, ((fr, Symbol.Term t), tgt) ∈ transitions ∧
        state_number_table states fr = some n ∧ accept_item ext st eof ∈ tgt) ∧
    (∀ m, p.action_table (n, t) = some (ActionKind.Shift m) ↔
      ∃ fr tgt, ((fr, Symbol.Term t), tgt) ∈ transitions ∧
        state_number_table states fr = some n ∧ accept_item ext st eof ∉ tgt ∧
        tgt ≠ [] ∧ state_number_table states tgt = some m) ∧
    (p.action_table (n, t) = some ActionKind.Error ↔
      ∃ fr tgt, ((fr, Symbol.Term t), tgt) ∈ transitions ∧
        state_number_table states fr = some n ∧ accept_item ext st eof ∉ tgt ∧ tgt = []) := by
  obtain ⟨ssn, rt, at0, at1, gt1, hred, htr, hpe⟩ :=
    canonical_decomp states transitions ext st eof terms p hp
  have hfin : p.action_table (n, t) = at1 (n, t) := by rw [hpe]
  have hinj : ∀ a b i, state_number_table states a = some i →
      state_number_table states b = some i → a = b :=
    fun a b i h1 h2 => state_number_table_inj states a b i h1 h2
  by_cases hw : ∃ fr tgt, ((fr, Symbol.Term t), tgt) ∈ transitions ∧
      state_number_table states fr = some n
  · obtain ⟨fr, tgt, hmem, hn⟩ := hw
    obtain ⟨a, hta, hat⟩ := transition_loop_writer (state_number_table states)
      (accept_item ext st eof) hinj transitions at0 (fun _ => none) at1 gt1 htr hnd
      fr tgt t n hmem hn
    have hval : p.action_table (n, t) = some a := hfin.trans hat
    have huniq : ∀ fr2 tgt2, ((fr2, Symbol.Term t), tgt2) ∈ transitions →
        state_number_table states fr2 = some n → tgt2 = tgt := by
      intro fr2 tgt2 hm2 hn2
      have hfr2 : fr2 = fr := hinj fr2 fr n hn2 hn
      subst hfr2
      exact trans_entry_unique transitions hnd (fr2, Symbol.Term t) tgt2 tgt hm2 hmem
    rcases transition_action_cases (state_number_table states) (accept_item ext st eof)
        tgt a hta with ⟨haa, hin⟩ | ⟨m0, ham, hnin, hne, hm0⟩ | ⟨hae, hnin, hemp⟩
    · subst haa
      refine ⟨iff_of_true hval ⟨fr, tgt, hmem, hn, hin⟩, ?_, ?_⟩
      · intro m
        refine iff_of_false ?_ ?_
        · intro h
          have hc := hval.symm.trans h
          simp at hc
        · rintro ⟨fr2, tgt2, hm2, hn2, hnin2, -, -⟩
          apply hnin2
          rw [huniq fr2 tgt2 hm2 hn2]
          exact hin
      · refine iff_of_false ?_ ?_
        · intro h
          have hc := hval.symm.trans h
          simp at hc
        · rintro ⟨fr2, tgt2, hm2, hn2, hnin2, -⟩
          apply hnin2
          rw [huniq fr2 tgt2 hm2 hn2]
          exact hin
    · subst ham
      refine ⟨?_, ?_, ?_⟩
      · refine iff_of_false ?_ ?_
        · intro h
          have hc := hval.symm.trans h
          simp at hc
        · rintro ⟨fr2, tgt2, hm2, hn2, hin2⟩
          apply hnin
          rw [← huniq fr2 tgt2 hm2 hn2]
          exact hin2
      · intro m
        constructor
        · intro h
          have hc := hval.symm.trans h
          have hm : m0 = m := by
            simpa using hc
          subst hm
          exact ⟨fr, tgt, hmem, hn, hnin, hne, hm0⟩
        · rintro ⟨fr2, tgt2, hm2, hn2, -, -, hm2t⟩
          have ht2 : tgt2 = tgt := huniq fr2 tgt2 hm2 hn2
          subst ht2
          have hmm : m = m0 := by
            rw [hm0] at hm2t
            exact (Option.some.inj hm2t).symm
          subst hmm
          exact hval
      · refine iff_of_false ?_ ?_
        · intro h
          have hc := hval.symm.trans h
          simp at hc
        · rintro ⟨fr2, tgt2, hm2, hn2, -, hemp2⟩
          apply hne
          rw [← huniq fr2 tgt2 hm2 hn2]
          exact hemp2
    · subst hae
      refine ⟨?_, ?_, ?_⟩
      · refine iff_of_false ?_ ?_
        · intro h
          have hc := hval.symm.trans h
          simp at hc
        · rintro ⟨fr2, tgt2, hm2, hn2, hin2⟩
          apply hnin
          rw [← huniq fr2 tgt2 hm2 hn2]
          exact hin2
      · intro m
        refine iff_of_false ?_ ?_
        · intro h
          have hc := hval.symm.trans h
          simp at hc
        · rintro ⟨fr2, tgt2, hm2, hn2, -, hne2, -⟩
          apply hne2
          rw [huniq fr2 tgt2 hm2 hn2]
          exact hemp
      · exact iff_of_true hval ⟨fr, tgt, hmem, hn, hnin, hemp⟩
  · push_neg at hw
    have hkeep := transition_loop_no_writer (state_number_table states)
      (accept_item ext st eof) transitions at0 (fun _ => none) at1 gt1 htr n t hw
    have hshape : at0 (n, t) = none ∨ ∃ r, at0 (n, t) = some (ActionKind.Reduce r) := by
      rcases reduce_loop_shape (state_number_table states) terms
          (reduce_states states (accept_item ext st eof)) 0 [] (fun _ => none) rt at0 hred
          (n, t) with h | h
      · exact Or.inr h
      · exact Or.inl h
    have hnotval : ∀ a2, isReduceAction a2 = false → p.action_table (n, t) ≠ some a2 := by
      intro a2 hra h
      rw [hfin, hkeep] at h
      rcases hshape with h0 | ⟨r, h0⟩
      · rw [h0] at h
        exact Option.noConfusion h
      · rw [h0] at h
        have := Option.some.inj h
        rw [← this] at hra
        simp [isReduceAction] at hra
    refine ⟨?_, ?_, ?_⟩
    · refine iff_of_false (hnotval ActionKind.Accept rfl) ?_
      rintro ⟨fr2, tgt2, hm2, hn2, -⟩
      exact hw fr2 tgt2 hm2 hn2
    · intro m
      refine iff_of_false (hnotval (ActionKind.Shift m) rfl) ?_
      rintro ⟨fr2, tgt2, hm2, hn2, -, -, -⟩
      exact hw fr2 tgt2 hm2 hn2
    · refine iff_of_false (hnotval ActionKind.Error rfl) ?_
      rintro ⟨fr2, tgt2, hm2, hn2, -, -⟩
      exact hw fr2 tgt2 hm2 hn2

/-- Witness for C9: the conflict automaton's transition from state 1 on
terminal 0 targets the non-accepting, non-empty state numbered 2, and the
final entry is Shift 2 by the Shift direction of the equivalence. -/
theorem C9_shift_accept_exclusivity_witness :
    pEx.action_table (1, 0) = some (ActionKind.Shift 2) :=
  ((C9_shift_accept_exclusivity statesEx tsEx 0 1 1 [0, 1] pEx pEx_spec
      (by decide) 1 0).2.1 2).mpr
    ⟨sEx1, sEx2, by decide, by decide, by decide, by decide, by decide⟩

end Petit
